import Mathlib

/-!
# Screwtape interpreter: a shallow embedding

This file embeds the execution core of the Screwtape visualizer (a modified
Brainfuck interpreter) in Lean 4 and proves the specification's claims about
it.  The embedding follows the canonical revision of the source: cells are
32-bit signed integers with silent wraparound (`(v + 1) | 0` in the source),
`[` is a no-op, `]` jumps back to its matching `[` when the current cell is
nonzero, and the print instruction appends a formatted display token.

The tape is a doubly-linked list of nodes in the source.  We model the heap
of allocated nodes as a list indexed by allocation order (the source tags
nodes with ids `node0`, `node1`, ... in exactly this order), with `left` and
`right` being optional node indices, so that the pointer-structure
invariants of the tape are faithfully expressible.
-/

namespace Screwtape

/-- A node of the doubly-linked tape: a value and optional left/right
neighbour indices (`null` pointers become `none`). -/
structure TapeNode where
  value : Int
  left : Option Nat
  right : Option Nat
deriving DecidableEq, Repr

instance : Inhabited TapeNode := ⟨⟨0, none, none⟩⟩

/-- A display token produced by the output formatter: either a literal
printable character, one of the named non-printing spans, or the generic
symbolic "value N" span. -/
inductive Tok where
  | lit (c : Char)
  | nul
  | bel
  | bs
  | tabTok
  | lf
  | cr
  | generic (n : Int)
deriving DecidableEq, Repr

/-- `formatChar` from the source: printable ASCII (32..126) is emitted as a
literal character; a handful of control codes get named symbolic spans; every
other value gets a generic symbolic span carrying the value. -/
def formatChar (code : Int) : Tok :=
  if 32 ≤ code ∧ code ≤ 126 then Tok.lit (Char.ofNat code.toNat)
  else if code = 0 then Tok.nul
  else if code = 7 then Tok.bel
  else if code = 8 then Tok.bs
  else if code = 9 then Tok.tabTok
  else if code = 10 then Tok.lf
  else if code = 13 then Tok.cr
  else Tok.generic code

/-- The loop of `buildBracketMap`: scan the remaining characters (`cs`,
starting at absolute index `i`) with the pending-opens stack `st`,
accumulating recorded entries in `m` (the JS object `map[i] = openIndex`
is modelled as an association list in recording order). -/
def bmLoop : List Char → Nat → List Nat → List (Nat × Nat) → List (Nat × Nat)
  | [], _, _, m => m
  | c :: cs, i, st, m =>
    if c = '[' then
      bmLoop cs (i + 1) (i :: st) m
    else if c = ']' then
      match st with
      | [] => bmLoop cs (i + 1) [] m
      | o :: st' => bmLoop cs (i + 1) st' (m ++ [(i, o)])
    else
      bmLoop cs (i + 1) st m

/-- `ScrewtapeInterpreter.buildBracketMap`: one pass over the program with a
stack of pending `[` indices; each `]` with a non-empty stack records
(close-index, open-index). -/
def buildBracketMap (p : List Char) : List (Nat × Nat) :=
  bmLoop p 0 [] []

/-- Lookup in the bracket map (`this.bracketMap[this.ip]`); keys are
recorded at most once, so the first match is the entry. -/
def lookupBM (m : List (Nat × Nat)) (i : Nat) : Option Nat :=
  (m.find? (fun e => e.1 == i)).map (fun e => e.2)

/-- The interpreter state: program, precomputed bracket map, instruction
pointer (a JS number that the termination test compares against 0, hence
`Int`), output token sequence, termination flag, and the tape: the heap of
allocated nodes plus the indices of the current, leftmost and rightmost
nodes. -/
structure Interp where
  program : List Char
  bracketMap : List (Nat × Nat)
  ip : Int
  output : List Tok
  terminated : Bool
  nodes : List TapeNode
  current : Nat
  leftmost : Nat
  rightmost : Nat
deriving DecidableEq, Repr

/-- Fetch a node by index (total, like a JS dereference of a live node). -/
def getNode (s : Interp) (i : Nat) : TapeNode :=
  (s.nodes[i]?).getD default

/-- `this.currentNode.value`. -/
def currentValue (s : Interp) : Int :=
  (getNode s s.current).value

/-- Overwrite the current node's value. -/
def setValue (s : Interp) (v : Int) : Interp :=
  { s with nodes := s.nodes.set s.current { getNode s s.current with value := v } }

/-- JS `x | 0` on an exact integer: the two's-complement 32-bit value. -/
def wrap32 (x : Int) : Int :=
  (x + 2147483648) % 4294967296 - 2147483648

/-- The `>` case of `step`: if the current node has no right neighbour,
allocate a zero node, link it on the right and make it the rightmost; then
move the cursor onto the right neighbour. -/
def moveRight (s : Interp) : Interp :=
  match (getNode s s.current).right with
  | some j => { s with current := j }
  | none =>
    let L := s.nodes.length
    { s with
      nodes := (s.nodes.set s.current { getNode s s.current with right := some L })
                ++ [⟨0, some s.current, none⟩]
      current := L
      rightmost := L }

/-- The `<` case of `step`: symmetric to `moveRight`. -/
def moveLeft (s : Interp) : Interp :=
  match (getNode s s.current).left with
  | some j => { s with current := j }
  | none =>
    let L := s.nodes.length
    { s with
      nodes := (s.nodes.set s.current { getNode s s.current with left := some L })
                ++ [⟨0, none, some s.current⟩]
      current := L
      leftmost := L }

/-- `addCellLeft`: unconditionally allocate a zero node, link it to the left
of the leftmost node and make it the new leftmost; the cursor stays put. -/
def addCellLeft (s : Interp) : Interp :=
  let L := s.nodes.length
  { s with
    nodes := (s.nodes.set s.leftmost { getNode s s.leftmost with left := some L })
              ++ [⟨0, none, some s.leftmost⟩]
    leftmost := L }

/-- `addCellRight`: symmetric to `addCellLeft`. -/
def addCellRight (s : Interp) : Interp :=
  let L := s.nodes.length
  { s with
    nodes := (s.nodes.set s.rightmost { getNode s s.rightmost with right := some L })
              ++ [⟨0, some s.rightmost, none⟩]
    rightmost := L }

/-- The shared tail of `step`: `this.ip++` followed by the out-of-bounds
check that sets the termination flag. -/
def advance (s : Interp) : Interp :=
  let s' := { s with ip := s.ip + 1 }
  if s'.ip < 0 ∨ (s'.program.length : Int) ≤ s'.ip then { s' with terminated := true }
  else s'

/-- `ScrewtapeInterpreter.step` (canonical revision): if the instruction
pointer is out of bounds, set the termination flag and return; otherwise
dispatch on the current character and fall through to `advance`, except for
a `]` on a nonzero cell with a bracket-map entry, which sets the pointer to
the entry and returns immediately. -/
def step (s : Interp) : Interp :=
  if s.ip < 0 ∨ (s.program.length : Int) ≤ s.ip then { s with terminated := true }
  else
    let instr := (s.program[s.ip.toNat]?).getD ' '
    if instr = '+' then advance (setValue s (wrap32 (currentValue s + 1)))
    else if instr = '-' then advance (setValue s (wrap32 (currentValue s - 1)))
    else if instr = '>' then advance (moveRight s)
    else if instr = '<' then advance (moveLeft s)
    else if instr = '.' then
      advance { s with output := s.output ++ [formatChar (currentValue s)] }
    else if instr = ']' then
      if currentValue s ≠ 0 then
        match lookupBM s.bracketMap s.ip.toNat with
        | some o => { s with ip := (o : Int) }
        | none => advance s
      else advance s
    else advance s

/-- `runStep`: step only while not terminated. -/
def runStep (s : Interp) : Interp :=
  if s.terminated then s else step s

/-- `new ScrewtapeInterpreter(program)`: pointer 0, empty output, not
terminated, and a tape of a single zero node that is simultaneously
current, leftmost and rightmost. -/
def initInterp (p : List Char) : Interp :=
  { program := p
    bracketMap := buildBracketMap p
    ip := 0
    output := []
    terminated := false
    nodes := [⟨0, none, none⟩]
    current := 0
    leftmost := 0
    rightmost := 0 }

/-- The exact condition under which `step` takes the backward jump at a
`]`: in bounds, on a `]`, nonzero cell, and a bracket-map entry present. -/
def jumpTaken (s : Interp) : Bool :=
  decide (0 ≤ s.ip) && decide (s.ip < (s.program.length : Int))
    && ((s.program[s.ip.toNat]?).getD ' ' == ']')
    && !(currentValue s == 0)
    && (lookupBM s.bracketMap s.ip.toNat).isSome

/-- The value the cell shows at an evaluation of `]`: `some v` when the
state is in bounds and resting on `]`, else `none`. -/
def onCloseVal (s : Interp) : Option Int :=
  if 0 ≤ s.ip ∧ s.ip < (s.program.length : Int)
      ∧ (s.program[s.ip.toNat]?).getD ' ' = ']' then
    some (currentValue s)
  else none

end Screwtape

namespace Screwtape

/-! ## Helper lemmas about `advance` and `setValue` -/

/-- `advance` only touches the instruction pointer and the termination
flag. -/
theorem advance_parts (s : Interp) :
    (advance s).nodes = s.nodes ∧ (advance s).current = s.current
    ∧ (advance s).leftmost = s.leftmost ∧ (advance s).rightmost = s.rightmost
    ∧ (advance s).output = s.output ∧ (advance s).program = s.program
    ∧ (advance s).bracketMap = s.bracketMap
    ∧ (advance s).ip = s.ip + 1 := by
  simp only [advance]
  split <;> simp

/-- Writing the current cell's value and reading it back gives the value,
provided the cursor index denotes an allocated node. -/
theorem currentValue_setValue (s : Interp) (v : Int)
    (h : s.current < s.nodes.length) :
    currentValue (setValue s v) = v := by
  unfold currentValue setValue getNode
  simp [List.getElem?_set_eq_of_lt _ h]

end Screwtape

namespace Screwtape

/-- C1: for every program and every execution state whose instruction
pointer is in bounds and rests on a `]` instruction: if the current cell's
value is nonzero and the jump table has an entry for this position, `step`
sets the instruction pointer to that entry and changes nothing else (in
particular it does not advance the pointer further); if the cell is zero or
no entry exists, `step` leaves the tape and the output unchanged and
advances the pointer by exactly one. -/
theorem step_closeBracket_spec (s : Interp) (o : Nat)
    (h0 : 0 ≤ s.ip) (h1 : s.ip < (s.program.length : Int))
    (hc : (s.program[s.ip.toNat]?).getD ' ' = ']') :
    (currentValue s ≠ 0 → lookupBM s.bracketMap s.ip.toNat = some o →
      step s = { s with ip := (o : Int) })
    ∧ ((currentValue s = 0 ∨ lookupBM s.bracketMap s.ip.toNat = none) →
      (step s).nodes = s.nodes ∧ (step s).current = s.current
      ∧ (step s).leftmost = s.leftmost ∧ (step s).rightmost = s.rightmost
      ∧ (step s).output = s.output ∧ (step s).ip = s.ip + 1) := by
  have hg : ¬(s.ip < 0 ∨ (s.program.length : Int) ≤ s.ip) := by omega
  constructor
  · intro hv ho
    simp +decide only [step, hg, if_false, hc, if_true, ho]
    rw [if_pos hv]
  · intro hz
    have hstep : step s = advance s := by
      simp +decide only [step, hg, if_false, hc, if_true]
      rcases hz with hz | hz
      · simp [hz]
      · rw [hz]
        split <;> rfl
    rw [hstep]
    obtain ⟨a, b, c, d, e, _, _, f⟩ := advance_parts s
    exact ⟨a, b, c, d, e, f⟩

end Screwtape

namespace Screwtape

/-- Witness state for the jump branch of C1: resting on the `]` of `[]`
with a nonzero cell. -/
def c1StateJump : Interp :=
  { initInterp ['[', ']'] with ip := 1, nodes := [⟨1, none, none⟩] }

/-- Witness state for the fall-through branch of C1: resting on the `]` of
`[]` with a zero cell. -/
def c1StateZero : Interp :=
  { initInterp ['[', ']'] with ip := 1 }

/-- Witness for C1 at concrete states: the jump branch and the advance
branch of `step_closeBracket_spec`. -/
theorem step_closeBracket_spec_witness :
    step c1StateJump = { c1StateJump with ip := (0 : Int) }
    ∧ (step c1StateZero).ip = c1StateZero.ip + 1 := by
  constructor
  · exact (step_closeBracket_spec c1StateJump 0 (by decide) (by decide)
      (by decide)).1 (by decide) (by decide)
  · exact ((step_closeBracket_spec c1StateZero 0 (by decide) (by decide)
      (by decide)).2 (Or.inl (by decide))).2.2.2.2.2

/-- `advance` does not change the current cell's value. -/
theorem currentValue_advance (s : Interp) :
    currentValue (advance s) = currentValue s := by
  obtain ⟨hn, hc, -⟩ := advance_parts s
  unfold currentValue getNode
  rw [hn, hc]

/-- `wrap32` always lands in the signed 32-bit range. -/
theorem wrap32_bounds (x : Int) :
    -2147483648 ≤ wrap32 x ∧ wrap32 x < 2147483648 := by
  unfold wrap32
  have h1 : 0 ≤ (x + 2147483648) % 4294967296 := Int.emod_nonneg _ (by norm_num)
  have h2 : (x + 2147483648) % 4294967296 < 4294967296 :=
    Int.emod_lt_of_pos _ (by norm_num)
  omega

/-- `wrap32 x` is congruent to `x` modulo `2^32`: it is exactly the
two's-complement 32-bit representative. -/
theorem wrap32_modeq (x : Int) : Int.ModEq 4294967296 (wrap32 x) x := by
  unfold Int.ModEq wrap32
  rw [Int.sub_emod, Int.emod_emod_of_dvd _ dvd_rfl, ← Int.sub_emod,
    add_sub_cancel_right]

/-- C3: under the canonical 32-bit signed wraparound policy, `+` replaces
the current cell value `v` by the two's-complement 32-bit result of `v + 1`
(the unique value in `[-2^31, 2^31)` congruent to `v + 1` mod `2^32`), `-`
by that of `v - 1`, and in particular incrementing `2147483647` yields
`-2147483648` and decrementing `-2147483648` yields `2147483647`; both
operations are total (no overflow signal). -/
theorem step_wraparound_spec (s : Interp)
    (h0 : 0 ≤ s.ip) (h1 : s.ip < (s.program.length : Int))
    (hcur : s.current < s.nodes.length) :
    ((s.program[s.ip.toNat]?).getD ' ' = '+' →
      currentValue (step s) = wrap32 (currentValue s + 1)
      ∧ Int.ModEq 4294967296 (currentValue (step s)) (currentValue s + 1)
      ∧ -2147483648 ≤ currentValue (step s) ∧ currentValue (step s) < 2147483648)
    ∧ ((s.program[s.ip.toNat]?).getD ' ' = '-' →
      currentValue (step s) = wrap32 (currentValue s - 1)
      ∧ Int.ModEq 4294967296 (currentValue (step s)) (currentValue s - 1)
      ∧ -2147483648 ≤ currentValue (step s) ∧ currentValue (step s) < 2147483648)
    ∧ wrap32 (2147483647 + 1) = -2147483648
    ∧ wrap32 (-2147483648 - 1) = 2147483647 := by
  have hg : ¬(s.ip < 0 ∨ (s.program.length : Int) ≤ s.ip) := by omega
  refine ⟨?_, ?_, by decide, by decide⟩
  · intro hc
    have hstep : step s = advance (setValue s (wrap32 (currentValue s + 1))) := by
      simp +decide only [step, hg, if_false, hc, if_true]
    have hv : currentValue (step s) = wrap32 (currentValue s + 1) := by
      rw [hstep, currentValue_advance, currentValue_setValue _ _ hcur]
    exact ⟨hv, hv ▸ wrap32_modeq _, hv ▸ (wrap32_bounds _).1, hv ▸ (wrap32_bounds _).2⟩
  · intro hc
    have hstep : step s = advance (setValue s (wrap32 (currentValue s - 1))) := by
      simp +decide only [step, hg, if_false, hc, if_true]
    have hv : currentValue (step s) = wrap32 (currentValue s - 1) := by
      rw [hstep, currentValue_advance, currentValue_setValue _ _ hcur]
    exact ⟨hv, hv ▸ wrap32_modeq _, hv ▸ (wrap32_bounds _).1, hv ▸ (wrap32_bounds _).2⟩

/-- Witness state for C3: resting on a `+` with the cell at the maximum
32-bit signed value. -/
def c3StateMax : Interp :=
  { initInterp ['+'] with nodes := [⟨2147483647, none, none⟩] }

/-- Witness state for C3: resting on a `-` with the cell at the minimum
32-bit signed value. -/
def c3StateMin : Interp :=
  { initInterp ['-'] with nodes := [⟨-2147483648, none, none⟩] }

/-- Witness for C3: the two wraparound corner cases, computed through
`step_wraparound_spec` at concrete states. -/
theorem step_wraparound_spec_witness :
    currentValue (step c3StateMax) = -2147483648
    ∧ currentValue (step c3StateMin) = 2147483647 := by
  constructor
  · have h := (step_wraparound_spec c3StateMax (by decide) (by decide)
      (by decide)).1 (by decide)
    rw [h.1]
    decide
  · have h := (step_wraparound_spec c3StateMin (by decide) (by decide)
      (by decide)).2.1 (by decide)
    rw [h.1]
    decide

end Screwtape


namespace Screwtape

/-! ## Field-preservation lemmas for the tape operations -/

@[simp] theorem advance_program (s : Interp) : (advance s).program = s.program :=
  (advance_parts s).2.2.2.2.2.1

@[simp] theorem advance_bracketMap (s : Interp) :
    (advance s).bracketMap = s.bracketMap :=
  (advance_parts s).2.2.2.2.2.2.1

@[simp] theorem advance_ip (s : Interp) : (advance s).ip = s.ip + 1 :=
  (advance_parts s).2.2.2.2.2.2.2

@[simp] theorem moveRight_program (s : Interp) :
    (moveRight s).program = s.program := by
  unfold moveRight
  split <;> rfl

@[simp] theorem moveRight_bracketMap (s : Interp) :
    (moveRight s).bracketMap = s.bracketMap := by
  unfold moveRight
  split <;> rfl

@[simp] theorem moveRight_ip (s : Interp) : (moveRight s).ip = s.ip := by
  unfold moveRight
  split <;> rfl

@[simp] theorem moveRight_output (s : Interp) :
    (moveRight s).output = s.output := by
  unfold moveRight
  split <;> rfl

@[simp] theorem moveRight_terminated (s : Interp) :
    (moveRight s).terminated = s.terminated := by
  unfold moveRight
  split <;> rfl

@[simp] theorem moveLeft_program (s : Interp) :
    (moveLeft s).program = s.program := by
  unfold moveLeft
  split <;> rfl

@[simp] theorem moveLeft_bracketMap (s : Interp) :
    (moveLeft s).bracketMap = s.bracketMap := by
  unfold moveLeft
  split <;> rfl

@[simp] theorem moveLeft_ip (s : Interp) : (moveLeft s).ip = s.ip := by
  unfold moveLeft
  split <;> rfl

@[simp] theorem moveLeft_output (s : Interp) :
    (moveLeft s).output = s.output := by
  unfold moveLeft
  split <;> rfl

@[simp] theorem moveLeft_terminated (s : Interp) :
    (moveLeft s).terminated = s.terminated := by
  unfold moveLeft
  split <;> rfl

/-- `step` never changes the program or the bracket map. -/
theorem step_preserves (s : Interp) :
    (step s).program = s.program ∧ (step s).bracketMap = s.bracketMap := by
  simp only [step]
  repeat' split
  all_goals exact ⟨by simp [setValue], by simp [setValue]⟩

/-- A terminated state whose instruction pointer is out of bounds is a
fixed point of `step`. -/
theorem stuck_of_terminated (s : Interp) (hterm : s.terminated = true)
    (hoob : s.ip < 0 ∨ (s.program.length : Int) ≤ s.ip) : step s = s := by
  have h1 : step s = { s with terminated := true } := by
    simp only [step]
    rw [if_pos hoob]
  rw [h1]
  cases s
  simp_all

/-- One step preserves the invariant "terminated implies the instruction
pointer is out of bounds". -/
theorem step_term_oob (s : Interp)
    (hs : s.terminated = true → (s.ip < 0 ∨ (s.program.length : Int) ≤ s.ip)) :
    (step s).terminated = true →
    ((step s).ip < 0 ∨ ((step s).program.length : Int) ≤ (step s).ip) := by
  by_cases hg : s.ip < 0 ∨ (s.program.length : Int) ≤ s.ip
  · have h1 : step s = { s with terminated := true } := by
      simp only [step]
      rw [if_pos hg]
    rw [h1]
    intro
    exact hg
  · have hterm : s.terminated = false := by
      rcases Bool.eq_false_or_eq_true s.terminated with h | h
      · exact absurd (hs h) hg
      · exact h
    have hadv : ∀ t : Interp, t.terminated = false → t.program = s.program →
        (advance t).terminated = true →
        ((advance t).ip < 0 ∨ ((advance t).program.length : Int) ≤ (advance t).ip) := by
      intro t ht hp
      simp only [advance]
      split
      · intro
        simp_all
      · intro hcontra
        simp_all
    simp only [step]
    rw [if_neg hg]
    repeat' split
    · exact hadv _ hterm rfl
    · exact hadv _ hterm rfl
    · exact hadv _ (by rwa [moveRight_terminated]) (by simp)
    · exact hadv _ (by rwa [moveLeft_terminated]) (by simp)
    · exact hadv _ hterm rfl
    · intro hcontra
      simp_all
    · exact hadv _ hterm rfl
    · exact hadv _ hterm rfl
    · exact hadv _ hterm rfl

/-- Every state reachable from the initial state satisfies: if the
termination flag is set, the instruction pointer is out of bounds. -/
theorem reachable_term_oob (p : List Char) (n : Nat) :
    (step^[n] (initInterp p)).terminated = true →
    ((step^[n] (initInterp p)).ip < 0
      ∨ (((step^[n] (initInterp p)).program.length : Int) ≤ (step^[n] (initInterp p)).ip)) := by
  induction n with
  | zero =>
    intro h
    exact absurd h (by simp [initInterp])
  | succ n ih =>
    have h1 : step^[n + 1] (initInterp p) = step (step^[n] (initInterp p)) :=
      Function.iterate_succ_apply' step n (initInterp p)
    rw [h1]
    exact step_term_oob _ ih

/-- C4: for every program and every state reachable from the initial state
by `step` calls in which the termination flag is true, both `step` and
`runStep` leave the entire state (instruction pointer, output, termination
flag, and the whole tape) unchanged. -/
theorem step_terminated_idempotent (p : List Char) (n : Nat)
    (h : (step^[n] (initInterp p)).terminated = true) :
    step (step^[n] (initInterp p)) = step^[n] (initInterp p)
    ∧ runStep (step^[n] (initInterp p)) = step^[n] (initInterp p) := by
  refine ⟨stuck_of_terminated _ h (reachable_term_oob p n h), ?_⟩
  simp [runStep, h]

/-- Witness for C4: the empty program is terminated after one step, and a
further `step` is the identity on it. -/
theorem step_terminated_idempotent_witness :
    step (step^[1] (initInterp ([] : List Char))) = step^[1] (initInterp ([] : List Char)) :=
  (step_terminated_idempotent [] 1 (by decide)).1

end Screwtape

namespace Screwtape

/-- The C5 test program `++++++++[-]`. -/
def c5Prog : List Char :=
  ['+', '+', '+', '+', '+', '+', '+', '+', '[', '-', ']']

/-- The state of the C5 run after `n` steps from the initial state. -/
def c5State (n : Nat) : Interp :=
  step^[n] (initInterp c5Prog)

/-- The first 32 states of the C5 run (the run terminates at step 32 and
is frozen afterwards). -/
def c5Trace : List Interp :=
  (List.range 32).map c5State

/-- The cell values observed at each evaluation of `]` during the C5 run. -/
def c5CloseVals : List Int :=
  c5Trace.filterMap onCloseVal

/-- How many of the C5 run's steps take the backward jump at `]`. -/
def c5Jumps : Nat :=
  c5Trace.countP (fun s => jumpTaken s)

set_option maxRecDepth 100000 in
/-- The state after 32 steps of the C5 run is terminated with the pointer
out of bounds, hence a fixed point of `step`: nothing further is ever
evaluated. -/
theorem c5_fixed : step (c5State 32) = c5State 32 :=
  stuck_of_terminated _ (by decide) (by decide)

set_option maxRecDepth 100000 in
/-- C5 counterexample: running `++++++++[-]` from the initial state, the
`]` instruction is evaluated only 8 times in the whole execution (the state
after 32 steps is terminated and is not resting on `]`, and by `c5_fixed`
that state never changes again), so there is no ninth evaluation of `]`
contrary to the claim. -/
theorem c5_ninth_eval_counterexample :
    ¬ 9 ≤ c5CloseVals.length
    ∧ onCloseVal (c5State 32) = none
    ∧ (c5State 32).terminated = true := by
  exact ⟨by decide, by decide, by decide⟩

set_option maxRecDepth 100000 in
/-- C5 (amended): for `++++++++[-]` from the initial state, `]` jumps back
to the matching `[` exactly seven times, the cell reaches 8 and then passes
down through 7,...,0 (the values seen at the successive evaluations of `]`
are 7,6,5,4,3,2,1,0), the EIGHTH evaluation of `]` sees value 0 and falls
through, and at termination (step 32, after which the state is frozen
forever) the cell's final value is 0. -/
theorem c5_run_spec :
    c5CloseVals = [7, 6, 5, 4, 3, 2, 1, 0]
    ∧ c5Jumps = 7
    ∧ (c5State 32).terminated = true
    ∧ currentValue (c5State 32) = 0
    ∧ currentValue (c5State 8) = 8
    ∧ ∀ n : Nat, 32 ≤ n → c5State n = c5State 32 := by
  refine ⟨by decide, by decide, by decide, by decide, by decide, ?_⟩
  intro n hn
  obtain ⟨k, rfl⟩ := Nat.exists_eq_add_of_le hn
  induction k with
  | zero => rfl
  | succ k ih =>
    have h1 : c5State (32 + (k + 1)) = step (c5State (32 + k)) :=
      Function.iterate_succ_apply' step (32 + k) (initInterp c5Prog)
    rw [h1, ih (by omega)]
    exact c5_fixed

/-- Witness for C5 (amended): the frozen-tail conjunct applied at `n = 33`. -/
theorem c5_run_spec_witness : c5State 33 = c5State 32 :=
  c5_run_spec.2.2.2.2.2 33 (by decide)

/-- The C6 test program `+++.`. -/
def c6Prog : List Char := ['+', '+', '+', '.']

/-- The C6 run, executed to termination (4 steps). -/
def c6Final : Interp := step^[4] (initInterp c6Prog)

/-- C6: executing `+++.` to termination leaves the tape with exactly one
cell whose value is 3, and the output holds exactly one display token: the
symbolic generic token for the value 3, not the literal character with code
point 3. -/
theorem c6_run_spec :
    c6Final.terminated = true
    ∧ c6Final.nodes = [⟨3, none, none⟩]
    ∧ c6Final.output = [formatChar 3]
    ∧ formatChar 3 = Tok.generic 3
    ∧ Tok.generic 3 ≠ Tok.lit (Char.ofNat 3) := by
  exact ⟨by decide, by decide, by decide, by decide, by decide⟩

end Screwtape

namespace Screwtape

/-- The bracket resolver as the spec's claim words it (a second definition,
for comparison with `buildBracketMap`): scan the indexed characters left to
right with a pending-opens stack; at each loop-open push its index; at each
loop-close with a non-empty stack pop the top index `o` and record
(close-index, o); at each loop-close with an empty stack record nothing;
indices remaining on the stack at the end produce no entries. -/
def resolverScan : List (Nat × Char) → List Nat → List (Nat × Nat)
  | [], _ => []
  | (i, c) :: rest, pending =>
    if c = '[' then resolverScan rest (i :: pending)
    else if c = ']' then
      match pending with
      | [] => resolverScan rest []
      | o :: ps => (i, o) :: resolverScan rest ps
    else resolverScan rest pending

/-- The spec-worded resolver applied to a whole program. -/
def bracketResolverSpec (p : List Char) : List (Nat × Nat) :=
  resolverScan p.enum []

/-- The loop of `buildBracketMap` computes exactly the spec-worded scan of
the remaining (index, character) pairs, appended to the accumulator. -/
theorem bmLoop_eq_resolverScan (cs : List Char) :
    ∀ (i : Nat) (st : List Nat) (m : List (Nat × Nat)),
      bmLoop cs i st m = m ++ resolverScan (List.enumFrom i cs) st := by
  induction cs with
  | nil =>
    intro i st m
    simp [bmLoop, resolverScan]
  | cons c cs ih =>
    intro i st m
    rw [List.enumFrom_cons]
    by_cases h1 : c = '['
    · simp [bmLoop, resolverScan, h1, ih]
    · by_cases h2 : c = ']'
      · cases st with
        | nil => simp [bmLoop, resolverScan, h1, h2, ih]
        | cons o ps => simp [bmLoop, resolverScan, h1, h2, ih]
      · simp [bmLoop, resolverScan, h1, h2, ih]

/-- C2: `buildBracketMap` returns exactly the table described by the spec's
left-to-right pending-opens-stack scan, and the result is a function of the
program alone: identical programs yield identical tables. -/
theorem buildBracketMap_spec (p : List Char) :
    buildBracketMap p = bracketResolverSpec p
    ∧ ∀ q : List Char, q = p → buildBracketMap q = buildBracketMap p := by
  refine ⟨?_, fun q hq => by rw [hq]⟩
  unfold buildBracketMap bracketResolverSpec
  rw [bmLoop_eq_resolverScan]
  simp [List.enum]

/-- Witness for C2 at the nested program `[[]]`: the loop embedding and the
spec-worded resolver give the same two entries, innermost pair first. -/
theorem buildBracketMap_spec_witness :
    buildBracketMap ['[', '[', ']', ']'] = bracketResolverSpec ['[', '[', ']', ']']
    ∧ buildBracketMap ['[', '[', ']', ']'] = [(2, 1), (3, 0)] := by
  constructor
  · exact (buildBracketMap_spec ['[', '[', ']', ']']).1
  · exact ((buildBracketMap_spec ['[', '[', ']', ']']).2 ['[', '[', ']', ']'] rfl).trans
      (by decide)

end Screwtape

namespace Screwtape

/-! ## C10: instruction-pointer safety -/

/-- Every entry the bracket-map loop adds beyond the accumulator has both
components below the end of the scanned range, provided the pending stack
only holds indices below the current position. -/
theorem bmLoop_bounds (cs : List Char) :
    ∀ (i : Nat) (st : List Nat) (m : List (Nat × Nat)),
      (∀ x ∈ st, x < i) →
      ∀ e ∈ bmLoop cs i st m, e ∈ m ∨ (e.1 < i + cs.length ∧ e.2 < i + cs.length) := by
  induction cs with
  | nil =>
    intro i st m _ e he
    exact Or.inl he
  | cons c cs ih =>
    intro i st m hst e he
    by_cases h1 : c = '['
    · simp only [bmLoop, h1, if_true, if_pos] at he
      have hst' : ∀ x ∈ i :: st, x < i + 1 := by
        intro x hx
        rcases List.mem_cons.mp hx with rfl | hx
        · omega
        · exact Nat.lt_succ_of_lt (hst x hx)
      rcases ih (i + 1) (i :: st) m hst' e he with h | h
      · exact Or.inl h
      · right
        simp only [List.length_cons]
        omega
    · by_cases h2 : c = ']'
      · cases st with
        | nil =>
          simp only [bmLoop, h1, h2, if_false, if_true, ite_true, ite_false] at he
          rcases ih (i + 1) [] m (by simp) e he with h | h
          · exact Or.inl h
          · right
            simp only [List.length_cons]
            omega
        | cons o ps =>
          simp only [bmLoop, h1, h2, if_false, if_true, ite_true, ite_false] at he
          have hps : ∀ x ∈ ps, x < i + 1 := by
            intro x hx
            exact Nat.lt_succ_of_lt (hst x (List.mem_cons_of_mem _ hx))
          rcases ih (i + 1) ps (m ++ [(i, o)]) hps e he with h | h
          · rcases List.mem_append.mp h with h | h
            · exact Or.inl h
            · right
              have ho : o < i := hst o (List.mem_cons_self _ _)
              have : e = (i, o) := List.mem_singleton.mp h
              subst this
              simp only [List.length_cons]
              constructor <;> omega
          · right
            simp only [List.length_cons]
            omega
      · simp only [bmLoop, h1, h2, if_false, ite_false] at he
        rcases ih (i + 1) st m (fun x hx => Nat.lt_succ_of_lt (hst x hx)) e he with h | h
        · exact Or.inl h
        · right
          simp only [List.length_cons]
          omega

/-- Every entry of the bracket map is a pair of valid program indices. -/
theorem buildBracketMap_bounds (p : List Char) :
    ∀ e ∈ buildBracketMap p, e.1 < p.length ∧ e.2 < p.length := by
  intro e he
  rcases bmLoop_bounds p 0 [] [] (by simp) e he with h | h
  · exact absurd h (List.not_mem_nil e)
  · simpa using h

/-- A successful bracket-map lookup returns a recorded pair. -/
theorem lookupBM_mem (m : List (Nat × Nat)) (i o : Nat)
    (h : lookupBM m i = some o) : (i, o) ∈ m := by
  unfold lookupBM at h
  obtain ⟨e, he, hf⟩ := Option.map_eq_some'.mp h
  have h1 : e ∈ m := List.mem_of_find?_eq_some he
  have h2 : e.1 = i := by
    simpa using List.find?_some he
  have h3 : e = (i, o) := by
    cases e
    simp_all
  rwa [h3] at h1

/-- One step keeps the instruction pointer non-negative. -/
theorem step_ip_nonneg (s : Interp) (h0 : 0 ≤ s.ip) : 0 ≤ (step s).ip := by
  by_cases hg : s.ip < 0 ∨ (s.program.length : Int) ≤ s.ip
  · have h1 : step s = { s with terminated := true } := by
      simp only [step]
      rw [if_pos hg]
    rw [h1]
    exact h0
  · simp only [step]
    rw [if_neg hg]
    repeat' split
    all_goals simp only [advance_ip, setValue, moveRight_ip, moveLeft_ip]
    all_goals omega

/-- The program text is preserved along any run from the initial state. -/
theorem reachable_program (p : List Char) (n : Nat) :
    (step^[n] (initInterp p)).program = p := by
  induction n with
  | zero => rfl
  | succ n ih =>
    rw [Function.iterate_succ_apply', (step_preserves _).1, ih]

/-- C10: along every run from the initial state the instruction pointer is
non-negative, so the `ip < 0` half of the termination test never fires:
termination can only occur with the pointer at or beyond the program
length.  Moreover every jump-table entry (the only non-increment
assignment to the pointer) is a pair of valid program indices. -/
theorem ip_safety_spec (p : List Char) (n : Nat) :
    0 ≤ (step^[n] (initInterp p)).ip
    ∧ ((step^[n] (initInterp p)).terminated = true →
        (p.length : Int) ≤ (step^[n] (initInterp p)).ip)
    ∧ (∀ e ∈ buildBracketMap p, e.1 < p.length ∧ e.2 < p.length)
    ∧ (∀ i o, lookupBM (buildBracketMap p) i = some o →
        i < p.length ∧ o < p.length) := by
  have hn : 0 ≤ (step^[n] (initInterp p)).ip := by
    induction n with
    | zero => simp [initInterp]
    | succ n ih =>
      rw [Function.iterate_succ_apply']
      exact step_ip_nonneg _ ih
  refine ⟨hn, ?_, buildBracketMap_bounds p, ?_⟩
  · intro hterm
    rcases reachable_term_oob p n hterm with h | h
    · omega
    · rwa [reachable_program] at h
  · intro i o h
    have := buildBracketMap_bounds p (i, o) (lookupBM_mem _ i o h)
    exact this

/-- Witness for C10 at the program `[]` after two steps. -/
theorem ip_safety_spec_witness :
    0 ≤ (step^[2] (initInterp ['[', ']'])).ip
    ∧ (2 : Int) ≤ (step^[2] (initInterp ['[', ']'])).ip := by
  have h := ip_safety_spec ['[', ']'] 2
  exact ⟨h.1, by simpa using h.2.1 (by decide)⟩

end Screwtape

namespace Screwtape

/-! ## C7: bracket-only programs terminate in one pass -/

/-- Balance check for bracket strings: running count of pending opens,
never negative, zero at the end. -/
def balancedAux : List Char → Nat → Bool
  | [], n => n == 0
  | c :: cs, n =>
    if c = '[' then balancedAux cs (n + 1)
    else if c = ']' then decide (0 < n) && balancedAux cs (n - 1)
    else balancedAux cs n

/-- A program is balanced when its brackets nest properly. -/
def balanced (p : List Char) : Bool :=
  balancedAux p 0

/-- A `]` with a zero current cell never jumps. -/
theorem jumpTaken_eq_false_of_zero (s : Interp) (h : currentValue s = 0) :
    jumpTaken s = false := by
  simp [jumpTaken, h]

/-- On a bracket-only program, an in-bounds step from a pristine-tape state
is exactly an `advance`: `[` is a no-op and `]` sees a zero cell. -/
theorem step_bracketOnly (p : List Char) (hp : ∀ c ∈ p, c = '[' ∨ c = ']')
    (k : Nat) (hk : k < p.length) :
    step { initInterp p with ip := (k : Int) }
      = advance { initInterp p with ip := (k : Int) } := by
  have hg : ¬(((k : Int)) < 0 ∨ (p.length : Int) ≤ (k : Int)) := by
    push_neg
    exact ⟨Int.ofNat_nonneg k, by exact_mod_cast hk⟩
  have htn : ((k : Int)).toNat = k := Int.toNat_natCast k
  have hsome : p[k]? = some p[k] := List.getElem?_eq_getElem hk
  have hinstr :
      ((({ initInterp p with ip := (k : Int) } : Interp).program[
        (({ initInterp p with ip := (k : Int) } : Interp).ip).toNat]?).getD ' ') = p[k] := by
    show ((p[((k : Int)).toNat]?).getD ' ') = p[k]
    rw [htn, hsome]
    rfl
  have hcv : currentValue { initInterp p with ip := (k : Int) } = 0 := rfl
  rcases hp p[k] (List.getElem_mem hk) with hc | hc
  · simp +decide only [step, hinstr.trans hc, if_true, if_false]
    simp only [show (initInterp p).program = p from rfl, hg, if_false]
  · simp +decide only [step, hinstr.trans hc, hcv, if_true, if_false]
    simp only [show (initInterp p).program = p from rfl, hg, if_false]

/-- `advance` from a pristine-tape state at pointer `k`: move to `k + 1`,
terminating exactly when that leaves the program. -/
theorem advance_initIp (p : List Char) (k : Nat) :
    advance { initInterp p with ip := (k : Int) }
      = if k + 1 < p.length then { initInterp p with ip := ((k + 1 : Nat) : Int) }
        else { initInterp p with ip := ((k + 1 : Nat) : Int), terminated := true } := by
  have hcast : ((k : Int)) + 1 = ((k + 1 : Nat) : Int) := by push_cast; ring
  by_cases h : k + 1 < p.length
  · rw [if_pos h]
    simp only [advance, initInterp]
    split
    · rename_i hbad
      exact absurd hbad (by simp at hbad ⊢; omega)
    · rw [hcast]
  · rw [if_neg h]
    simp only [advance, initInterp]
    split
    · rw [hcast]
    · rename_i hbad
      exact absurd hbad (by simp at hbad ⊢; omega)

/-- Full characterization of a bracket-only run: the pointer sweeps the
program once (the tape and output never change), then the state freezes at
pointer `p.length` with the termination flag set. -/
theorem bracketOnly_iterate (p : List Char) (hp : ∀ c ∈ p, c = '[' ∨ c = ']') :
    ∀ k : Nat, step^[k] (initInterp p) =
      if k < p.length then { initInterp p with ip := (k : Int) }
      else if k = 0 then initInterp p
      else { initInterp p with ip := (p.length : Int), terminated := true } := by
  intro k
  induction k with
  | zero =>
    by_cases h : 0 < p.length
    · rw [if_pos h]
      simp [initInterp]
    · rw [if_neg h, if_pos rfl]
      rfl
  | succ k ih =>
    rw [Function.iterate_succ_apply', ih]
    by_cases h1 : k < p.length
    · rw [if_pos h1, step_bracketOnly p hp k h1, advance_initIp]
      by_cases h2 : k + 1 < p.length
      · rw [if_pos h2, if_pos h2]
      · have hlen : p.length = k + 1 := by omega
        rw [if_neg h2, if_neg h2, if_neg (by omega : ¬ k + 1 = 0), hlen]
    · rw [if_neg h1]
      by_cases h0 : k = 0
      · have hlen : p.length = 0 := by omega
        rw [if_pos h0]
        have hstep : step (initInterp p) = { initInterp p with terminated := true } := by
          simp only [step]
          rw [if_pos]
          right
          show (p.length : Int) ≤ 0
          rw [hlen]
          decide
        rw [hstep, if_neg (by omega : ¬ k + 1 < p.length),
          if_neg (by omega : ¬ k + 1 = 0), hlen]
        rfl
      · rw [if_neg h0]
        have hfix : step { initInterp p with ip := (p.length : Int), terminated := true }
            = { initInterp p with ip := (p.length : Int), terminated := true } := by
          refine stuck_of_terminated _ rfl ?_
          right
          exact le_refl _
        rw [hfix, if_neg (by omega : ¬ k + 1 < p.length), if_neg (by omega : ¬ k + 1 = 0)]

/-- C7: for every program whose characters are exclusively `[` and `]`
(balanced), the run from the initial state terminates within one pass: after
`p.length` steps the pointer is at `p.length` and (when the program is
non-empty) the termination flag is set, and no `]` ever takes the backward
jump at any step of the run. -/
theorem bracketOnly_one_pass (p : List Char)
    (hp : ∀ c ∈ p, c = '[' ∨ c = ']') (hbal : balanced p = true) :
    (step^[p.length] (initInterp p)).ip = (p.length : Int)
    ∧ (0 < p.length → (step^[p.length] (initInterp p)).terminated = true)
    ∧ ∀ k : Nat, jumpTaken (step^[k] (initInterp p)) = false := by
  have hchar := bracketOnly_iterate p hp
  refine ⟨?_, ?_, ?_⟩
  · rw [hchar p.length, if_neg (Nat.lt_irrefl _)]
    by_cases h0 : p.length = 0
    · rw [if_pos h0]
      simp [initInterp, h0]
    · rw [if_neg h0]
  · intro hpos
    rw [hchar p.length, if_neg (Nat.lt_irrefl _), if_neg (by omega)]
  · intro k
    rw [hchar k]
    by_cases h1 : k < p.length
    · rw [if_pos h1]
      exact jumpTaken_eq_false_of_zero _ rfl
    · rw [if_neg h1]
      by_cases h0 : k = 0
      · rw [if_pos h0]
        have hlen : p.length = 0 := by omega
        have hnil : p = [] := List.length_eq_zero.mp hlen
        rw [hnil]
        decide
      · rw [if_neg h0]
        exact jumpTaken_eq_false_of_zero _ rfl

/-- Witness for C7 at the balanced bracket-only program `[]`. -/
theorem bracketOnly_one_pass_witness :
    (step^[2] (initInterp ['[', ']'])).ip = (2 : Int)
    ∧ (step^[2] (initInterp ['[', ']'])).terminated = true
    ∧ jumpTaken (step^[1] (initInterp ['[', ']'])) = false := by
  have h := bracketOnly_one_pass ['[', ']'] (by decide) (by decide)
  exact ⟨h.1, h.2.1 (by decide), h.2.2 1⟩

end Screwtape

namespace Screwtape

/-! ## C8: moving right N times then left N times -/

/-- The pointer discipline every doubly-linked tape built by the
interpreter satisfies: a right pointer is always answered by the matching
left pointer. -/
def TapeInv (ns : List TapeNode) : Prop :=
  ∀ (a b : Nat) (na : TapeNode), ns[a]? = some na → na.right = some b →
    ∃ nb : TapeNode, ns[b]? = some nb ∧ nb.left = some a

/-- Follow one left pointer. -/
def leftStep (ns : List TapeNode) (c : Nat) : Option Nat :=
  (ns[c]?).bind (fun n => n.left)

/-- Follow `k` left pointers from `c`. -/
def leftWalk (ns : List TapeNode) : Nat → Nat → Option Nat
  | 0, c => some c
  | k + 1, c => (leftStep ns c).bind (leftWalk ns k)

/-- If a `k`-step left walk over the current heap exists, then `k`
applications of `moveLeft` follow it exactly: no node is touched and the
cursor lands on the walk's endpoint. -/
theorem moveLeft_iterate_of_walk (k : Nat) :
    ∀ (s : Interp) (d : Nat), leftWalk s.nodes k s.current = some d →
      moveLeft^[k] s = { s with current := d } := by
  induction k with
  | zero =>
    intro s d h
    have hd : s.current = d := by simpa [leftWalk] using h
    subst hd
    cases s
    rfl
  | succ k ih =>
    intro s d h
    simp only [leftWalk] at h
    obtain ⟨e, he, hw⟩ := Option.bind_eq_some.mp h
    obtain ⟨nc, hnc, hleft⟩ := Option.bind_eq_some.mp he
    have hget : getNode s s.current = nc := by
      unfold getNode
      rw [hnc]
      rfl
    have hmv : moveLeft s = { s with current := e } := by
      unfold moveLeft
      rw [hget, hleft]
    rw [Function.iterate_succ_apply, hmv, ih { s with current := e } d hw]



/-- The heap shape produced by allocating a fresh node on the right of node
`cur`: `cur`'s right pointer is set to the new index and the zero node is
appended. -/
def allocRight (ns : List TapeNode) (cur : Nat) : List TapeNode :=
  (ns.set cur { (ns[cur]?).getD default with right := some ns.length })
    ++ [⟨0, some cur, none⟩]

/-- Symmetric shape for allocation on the left. -/
def allocLeft (ns : List TapeNode) (cur : Nat) : List TapeNode :=
  (ns.set cur { (ns[cur]?).getD default with left := some ns.length })
    ++ [⟨0, none, some cur⟩]

/-- Right allocation keeps every already-allocated node, its value and its
left pointer. -/
theorem allocRight_preserves (ns : List TapeNode) (cur : Nat) :
    ∀ (i : Nat) (n : TapeNode), ns[i]? = some n → ∃ n' : TapeNode,
      (allocRight ns cur)[i]? = some n' ∧ n'.value = n.value ∧ n'.left = n.left := by
  intro i n hi
  have hilen : i < ns.length := by
    by_contra hge
    rw [List.getElem?_eq_none (by omega)] at hi
    exact Option.noConfusion hi
  unfold allocRight
  by_cases hic : i = cur
  · subst hic
    refine ⟨{ n with right := some ns.length }, ?_, rfl, rfl⟩
    rw [List.getElem?_append_left (by simpa using hilen),
      List.getElem?_set_eq_of_lt _ hilen, hi]
    rfl
  · refine ⟨n, ?_, rfl, rfl⟩
    rw [List.getElem?_append_left (by simpa using hilen),
      List.getElem?_set_ne (fun h => hic h.symm), hi]

/-- Right allocation preserves the right-left pointer discipline. -/
theorem allocRight_inv (ns : List TapeNode) (cur : Nat) (h : TapeInv ns)
    (hcur : ((ns[cur]?).getD default).right = none) :
    TapeInv (allocRight ns cur) := by
  intro a b na ha har
  unfold allocRight at ha ⊢
  have hlen : (ns.set cur { (ns[cur]?).getD default with right := some ns.length }).length
      = ns.length := by
    simp
  by_cases haL : a < ns.length
  · rw [List.getElem?_append_left (by omega)] at ha
    by_cases hac : a = cur
    · subst hac
      rw [List.getElem?_set_eq_of_lt _ haL] at ha
      have hna : na = { (ns[a]?).getD default with right := some ns.length } :=
        (Option.some_inj.mp ha).symm
      rw [hna] at har
      have hbL : b = ns.length := by
        simpa using har.symm
      subst hbL
      refine ⟨⟨0, some a, none⟩, ?_, rfl⟩
      rw [List.getElem?_append_right (by omega), hlen]
      simp
    · rw [List.getElem?_set_ne (fun hh => hac hh.symm)] at ha
      obtain ⟨nb, hnb, hnbl⟩ := h a b na ha har
      have hblen : b < ns.length := by
        by_contra hge
        rw [List.getElem?_eq_none (by omega)] at hnb
        exact Option.noConfusion hnb
      by_cases hbc : b = cur
      · subst hbc
        refine ⟨{ (ns[b]?).getD default with right := some ns.length }, ?_, ?_⟩
        · rw [List.getElem?_append_left (by omega), List.getElem?_set_eq_of_lt _ hblen]
        · rw [hnb]
          simpa using hnbl
      · refine ⟨nb, ?_, hnbl⟩
        rw [List.getElem?_append_left (by omega),
          List.getElem?_set_ne (fun hh => hbc hh.symm), hnb]
  · by_cases haL2 : a = ns.length
    · subst haL2
      rw [List.getElem?_append_right (by omega), hlen] at ha
      simp at ha
      rw [← ha] at har
      exact Option.noConfusion har
    · rw [List.getElem?_eq_none (by simp; omega)] at ha
      exact Option.noConfusion ha

/-- When the current node has a right neighbour, `moveRight` only moves the
cursor; when it has none, it allocates via `allocRight`. -/
theorem moveRight_eq (s : Interp) :
    ((getNode s s.current).right = none →
      moveRight s = { s with
        nodes := allocRight s.nodes s.current
        current := s.nodes.length
        rightmost := s.nodes.length })
    ∧ ∀ j : Nat, (getNode s s.current).right = some j →
      moveRight s = { s with current := j } := by
  constructor
  · intro h
    unfold moveRight
    rw [h]
    rfl
  · intro j h
    unfold moveRight
    rw [h]

end Screwtape

namespace Screwtape

/-- Heap extensions that keep values and left pointers also keep every left
walk. -/
theorem leftWalk_mono (ns ns' : List TapeNode)
    (h : ∀ (i : Nat) (n : TapeNode), ns[i]? = some n → ∃ n' : TapeNode,
      ns'[i]? = some n' ∧ n'.value = n.value ∧ n'.left = n.left) :
    ∀ (k c d : Nat), leftWalk ns k c = some d → leftWalk ns' k c = some d := by
  intro k
  induction k with
  | zero =>
    intro c d hw
    simpa [leftWalk] using hw
  | succ k ih =>
    intro c d hw
    simp only [leftWalk] at hw ⊢
    obtain ⟨e, he, hw2⟩ := Option.bind_eq_some.mp hw
    obtain ⟨nc, hnc, hleft⟩ := Option.bind_eq_some.mp he
    obtain ⟨nc', hnc', _, hleft'⟩ := h c nc hnc
    refine Option.bind_eq_some.mpr ⟨e, ?_, ih _ _ hw2⟩
    exact Option.bind_eq_some.mpr ⟨nc', hnc', by rw [hleft', hleft]⟩

/-- Main induction for C8: after `N` moves right from a well-linked tape,
the pointer discipline still holds, every original node keeps its value and
left pointer, and an `N`-step left walk leads from the new cursor back to
the original one. -/
theorem moveRight_iterate_spec (s : Interp) (hInv : TapeInv s.nodes) (N : Nat) :
    TapeInv (moveRight^[N] s).nodes
    ∧ (∀ (i : Nat) (n : TapeNode), s.nodes[i]? = some n → ∃ n' : TapeNode,
        (moveRight^[N] s).nodes[i]? = some n' ∧ n'.value = n.value ∧ n'.left = n.left)
    ∧ leftWalk (moveRight^[N] s).nodes N (moveRight^[N] s).current = some s.current := by
  induction N with
  | zero => exact ⟨hInv, fun i n hi => ⟨n, hi, rfl, rfl⟩, rfl⟩
  | succ N ih =>
    obtain ⟨ihInv, ihPres, ihWalk⟩ := ih
    have hiter : moveRight^[N + 1] s = moveRight (moveRight^[N] s) :=
      Function.iterate_succ_apply' _ _ _
    cases hright : (getNode (moveRight^[N] s) (moveRight^[N] s).current).right with
    | some j =>
      have hmr : moveRight (moveRight^[N] s) = { moveRight^[N] s with current := j } :=
        (moveRight_eq _).2 j hright
      have hnc : (moveRight^[N] s).nodes[(moveRight^[N] s).current]?
          = some (getNode (moveRight^[N] s) (moveRight^[N] s).current) := by
        unfold getNode at hright ⊢
        cases hcase : (moveRight^[N] s).nodes[(moveRight^[N] s).current]? with
        | some v => rfl
        | none => rw [hcase] at hright; simp at hright
      obtain ⟨nj, hnj, hnjl⟩ := ihInv _ j _ hnc hright
      refine ⟨?_, ?_, ?_⟩
      · rw [hiter, hmr]
        exact ihInv
      · intro i n hi
        obtain ⟨n', h1, h2, h3⟩ := ihPres i n hi
        exact ⟨n', by rw [hiter, hmr]; exact h1, h2, h3⟩
      · rw [hiter, hmr]
        show leftWalk (moveRight^[N] s).nodes (N + 1) j = some s.current
        simp only [leftWalk]
        refine Option.bind_eq_some.mpr ⟨(moveRight^[N] s).current, ?_, ihWalk⟩
        exact Option.bind_eq_some.mpr ⟨nj, hnj, hnjl⟩
    | none =>
      have hmr : moveRight (moveRight^[N] s) = { moveRight^[N] s with
          nodes := allocRight (moveRight^[N] s).nodes (moveRight^[N] s).current
          current := (moveRight^[N] s).nodes.length
          rightmost := (moveRight^[N] s).nodes.length } :=
        (moveRight_eq _).1 hright
      have hcur : (((moveRight^[N] s).nodes[(moveRight^[N] s).current]?).getD default).right
          = none := hright
      refine ⟨?_, ?_, ?_⟩
      · rw [hiter, hmr]
        exact allocRight_inv _ _ ihInv hcur
      · intro i n hi
        obtain ⟨n', h1, h2, h3⟩ := ihPres i n hi
        obtain ⟨n'', h1', h2', h3'⟩ := allocRight_preserves _ (moveRight^[N] s).current i n' h1
        exact ⟨n'', by rw [hiter, hmr]; exact h1', h2'.trans h2, h3'.trans h3⟩
      · rw [hiter, hmr]
        show leftWalk (allocRight (moveRight^[N] s).nodes (moveRight^[N] s).current)
          (N + 1) (moveRight^[N] s).nodes.length = some s.current
        simp only [leftWalk]
        refine Option.bind_eq_some.mpr ⟨(moveRight^[N] s).current, ?_, ?_⟩
        · have hlast : (allocRight (moveRight^[N] s).nodes (moveRight^[N] s).current)[
              (moveRight^[N] s).nodes.length]?
              = some ⟨0, some (moveRight^[N] s).current, none⟩ := by
            unfold allocRight
            rw [List.getElem?_append_right (by simp)]
            simp
          exact Option.bind_eq_some.mpr ⟨_, hlast, rfl⟩
        · exact leftWalk_mono _ _ (allocRight_preserves _ _) N _ _ ihWalk

end Screwtape

namespace Screwtape

/-- The `i`-th node of the straight chain of `N + 1` zero cells. -/
def rightChainNode (N i : Nat) : TapeNode :=
  ⟨0, if i = 0 then none else some (i - 1), if i = N then none else some (i + 1)⟩

/-- The heap after moving right `N` times from the initial single cell:
`N + 1` zero nodes linked in a straight chain. -/
def rightChain (N : Nat) : List TapeNode :=
  (List.range (N + 1)).map (rightChainNode N)

theorem rightChain_getElem (N i : Nat) :
    (rightChain N)[i]? = if i < N + 1 then some (rightChainNode N i) else none := by
  unfold rightChain
  rw [List.getElem?_map]
  by_cases h : i < N + 1
  · rw [if_pos h, List.getElem?_range h]
    rfl
  · rw [if_neg h, List.getElem?_eq_none (by simpa using h)]
    rfl

theorem rightChain_length (N : Nat) : (rightChain N).length = N + 1 := by
  simp [rightChain]

/-- Allocating one more node to the right of the chain's end extends the
chain by one. -/
theorem rightChain_succ (N : Nat) :
    allocRight (rightChain N) N = rightChain (N + 1) := by
  apply List.ext_getElem?
  intro i
  unfold allocRight
  by_cases h1 : i < N + 1
  · rw [List.getElem?_append_left (by simp [rightChain_length]; omega)]
    by_cases h2 : i = N
    · subst h2
      rw [List.getElem?_set_eq_of_lt _ (by rw [rightChain_length]; omega),
        rightChain_getElem, if_pos (by omega), rightChain_getElem, if_pos (by omega),
        rightChain_length]
      simp only [Option.getD_some, rightChainNode]
      rw [if_neg (by omega : ¬ i = i + 1)]
    · rw [List.getElem?_set_ne (fun hh => h2 hh.symm), rightChain_getElem, if_pos h1,
        rightChain_getElem, if_pos (by omega)]
      simp only [rightChainNode]
      rw [if_neg h2, if_neg (by omega : ¬ i = N + 1)]
  · by_cases h2 : i = N + 1
    · subst h2
      rw [List.getElem?_append_right (by simp [rightChain_length])]
      have hrhs : (rightChain (N + 1))[N + 1]? = some (rightChainNode (N + 1) (N + 1)) := by
        rw [rightChain_getElem]
        exact if_pos (by omega)
      rw [hrhs]
      simp only [List.length_set, rightChain_length, Nat.sub_self,
        List.getElem?_cons_zero, rightChainNode]
      simp
    · rw [List.getElem?_eq_none (by simp [rightChain_length]; omega),
        rightChain_getElem, if_neg (by omega)]

/-- Moving right `N` times from the initial state materializes exactly the
straight chain of `N + 1` zero cells, with the cursor and the rightmost
marker on the new end and the leftmost marker unchanged. -/
theorem moveRight_iterate_init (p : List Char) (N : Nat) :
    moveRight^[N] (initInterp p) = { initInterp p with
      nodes := rightChain N
      current := N
      rightmost := N } := by
  induction N with
  | zero =>
    show initInterp p = _
    have h0 : rightChain 0 = [⟨0, none, none⟩] := rfl
    rw [h0]
    rfl
  | succ N ih =>
    rw [Function.iterate_succ_apply', ih]
    have hget : getNode { initInterp p with
        nodes := rightChain N
        current := N
        rightmost := N } N = rightChainNode N N := by
      unfold getNode
      show ((rightChain N)[N]?).getD default = _
      rw [rightChain_getElem, if_pos (by omega)]
      rfl
    have hright : (rightChainNode N N).right = none := by
      simp [rightChainNode]
    have hmr := (moveRight_eq { initInterp p with
      nodes := rightChain N
      current := N
      rightmost := N }).1 (by rw [hget]; exact hright)
    rw [hmr]
    show { initInterp p with
      nodes := allocRight (rightChain N) N
      current := (rightChain N).length
      rightmost := (rightChain N).length } = _
    rw [rightChain_succ, rightChain_length]

/-- The initial single-cell tape is well linked. -/
theorem tapeInv_single : TapeInv [(⟨0, none, none⟩ : TapeNode)] := by
  intro a b na ha har
  cases a with
  | zero =>
    simp at ha
    rw [← ha] at har
    exact Option.noConfusion har
  | succ a =>
    rw [List.getElem?_eq_none (by simp)] at ha
    exact Option.noConfusion ha

/-- C8: on any well-linked tape, moving right `N` times and then left `N`
times returns the cursor to the exact cell it started on and preserves the
value of every cell that existed before; starting from the initial
single-cell tape it produces exactly the straight chain of `N + 1` zero
cells — `N` new zero cells on the right, none on the left (the leftmost
marker and the whole rest of the state are unchanged), with the cursor back
on the original cell. -/
theorem roundtrip_spec (s : Interp) (N : Nat) (hInv : TapeInv s.nodes) :
    (moveLeft^[N] (moveRight^[N] s)).current = s.current
    ∧ (∀ (i : Nat) (n : TapeNode), s.nodes[i]? = some n → ∃ n' : TapeNode,
        (moveLeft^[N] (moveRight^[N] s)).nodes[i]? = some n' ∧ n'.value = n.value)
    ∧ (∀ p : List Char, moveLeft^[N] (moveRight^[N] (initInterp p)) =
        { initInterp p with
          nodes := rightChain N
          current := 0
          rightmost := N })
    ∧ (rightChain N).length = N + 1
    ∧ (∀ n ∈ rightChain N, n.value = 0) := by
  obtain ⟨hI, hP, hW⟩ := moveRight_iterate_spec s hInv N
  have hL := moveLeft_iterate_of_walk N (moveRight^[N] s) s.current hW
  refine ⟨?_, ?_, ?_, rightChain_length N, ?_⟩
  · rw [hL]
  · intro i n hi
    obtain ⟨n', h1, h2, _⟩ := hP i n hi
    exact ⟨n', by rw [hL]; exact h1, h2⟩
  · intro p
    obtain ⟨_, _, hW0⟩ := moveRight_iterate_spec (initInterp p) tapeInv_single N
    have hL0 := moveLeft_iterate_of_walk N _ _ hW0
    rw [hL0, moveRight_iterate_init p N]
    rfl
  · intro n hn
    obtain ⟨i, _, rfl⟩ := List.mem_map.mp hn
    rfl

/-- Witness for C8: the round trip from the initial state of the empty
program with `N = 2`. -/
theorem roundtrip_spec_witness :
    (moveLeft^[2] (moveRight^[2] (initInterp ([] : List Char)))).current
      = (initInterp ([] : List Char)).current
    ∧ moveLeft^[2] (moveRight^[2] (initInterp ([] : List Char)))
        = { initInterp ([] : List Char) with
            nodes := rightChain 2
            current := 0
            rightmost := 2 } := by
  have h := roundtrip_spec (initInterp ([] : List Char)) 2 tapeInv_single
  exact ⟨h.1, h.2.2.1 []⟩

end Screwtape

namespace Screwtape

/-! ## C9: structural invariants of the doubly-linked tape -/

/-- Node `a` is chained directly to node `b`: `a`'s right pointer names `b`
and `b`'s left pointer names `a` (the mutual-inverse discipline). -/
def Linked (ns : List TapeNode) (a b : Nat) : Prop :=
  ∃ (na nb : TapeNode), ns[a]? = some na ∧ ns[b]? = some nb
    ∧ na.right = some b ∧ nb.left = some a

/-- `ids` witnesses the tape's structure: it lists every allocated node
exactly once (so the chain is acyclic and covers the heap), consecutive
entries are mutually linked, it starts at the leftmost marker (whose node
has no left neighbour), ends at the rightmost marker (whose node has no
right neighbour), and contains the current node.  The tape is never empty
because `head?` succeeds. -/
structure WfChain (s : Interp) (ids : List Nat) : Prop where
  perm : ids.Perm (List.range s.nodes.length)
  chain : List.Chain' (Linked s.nodes) ids
  headEq : ids.head? = some s.leftmost
  lastEq : ids.getLast? = some s.rightmost
  headLeft : ∃ n : TapeNode, s.nodes[s.leftmost]? = some n ∧ n.left = none
  lastRight : ∃ n : TapeNode, s.nodes[s.rightmost]? = some n ∧ n.right = none
  curMem : s.current ∈ ids

/-- A tape state is well formed when some chain witnesses its structure. -/
def Wf (s : Interp) : Prop :=
  ∃ ids : List Nat, WfChain s ids

/-- The pointer part of a node, ignoring its value. -/
def sides (n : TapeNode) : Option Nat × Option Nat :=
  (n.left, n.right)

/-- Transfer of a node lookup along a pointwise `sides` agreement. -/
theorem exists_of_sides_eq (ns ns' : List TapeNode) (i : Nat)
    (hs : (ns'[i]?).map sides = (ns[i]?).map sides)
    (n : TapeNode) (hn : ns[i]? = some n) :
    ∃ n' : TapeNode, ns'[i]? = some n' ∧ n'.left = n.left ∧ n'.right = n.right := by
  rw [hn] at hs
  cases hcase : ns'[i]? with
  | none =>
    rw [hcase] at hs
    exact Option.noConfusion hs
  | some n' =>
    rw [hcase] at hs
    refine ⟨n', rfl, ?_, ?_⟩
    · exact congrArg Prod.fst (Option.some_inj.mp hs)
    · exact congrArg Prod.snd (Option.some_inj.mp hs)

/-- `Linked` only depends on the pointer parts of the heap. -/
theorem linked_congr (ns ns' : List TapeNode)
    (h : ∀ k : Nat, (ns'[k]?).map sides = (ns[k]?).map sides) :
    ∀ a b : Nat, Linked ns a b → Linked ns' a b := by
  rintro a b ⟨na, nb, ha, hb, hr, hl⟩
  obtain ⟨na', ha', hal, har⟩ := exists_of_sides_eq ns ns' a (h a) na ha
  obtain ⟨nb', hb', hbl, hbr⟩ := exists_of_sides_eq ns ns' b (h b) nb hb
  exact ⟨na', nb', ha', hb', by rw [har, hr], by rw [hbl, hl]⟩

/-- `Wf` only mentions the tape fields of the state. -/
theorem wf_congr (s t : Interp) (hn : t.nodes = s.nodes) (hc : t.current = s.current)
    (hl : t.leftmost = s.leftmost) (hr : t.rightmost = s.rightmost) (h : Wf s) : Wf t := by
  obtain ⟨ids, hw⟩ := h
  refine ⟨ids, ?_, ?_, ?_, ?_, ?_, ?_, ?_⟩
  · rw [hn]; exact hw.perm
  · rw [hn]; exact hw.chain
  · rw [hl]; exact hw.headEq
  · rw [hr]; exact hw.lastEq
  · rw [hn, hl]; exact hw.headLeft
  · rw [hn, hr]; exact hw.lastRight
  · rw [hc]; exact hw.curMem

/-- `advance` does not touch the tape, so it preserves well-formedness. -/
theorem wf_advance (t : Interp) (h : Wf t) : Wf (advance t) := by
  obtain ⟨hn, hc, hl, hr, -, -, -, -⟩ := advance_parts t
  exact wf_congr t (advance t) hn hc hl hr h

/-- In a chain, every member that is not the final element has a successor
it relates to. -/
theorem chain'_next {R : Nat → Nat → Prop} :
    ∀ ids : List Nat, List.Chain' R ids → ∀ a ∈ ids, ids.getLast? ≠ some a →
      ∃ b ∈ ids, R a b := by
  intro ids
  induction ids with
  | nil =>
    intro _ a ha
    exact absurd ha (List.not_mem_nil a)
  | cons x t ih =>
    intro hch a ha hlast
    cases t with
    | nil =>
      have hax : a = x := List.mem_singleton.mp ha
      subst hax
      exact absurd rfl hlast
    | cons y t' =>
      rcases List.mem_cons.mp ha with rfl | ha'
      · exact ⟨y, List.mem_cons_of_mem _ (List.mem_cons_self _ _),
          (List.chain'_cons.mp hch).1⟩
      · have hlast' : (y :: t').getLast? ≠ some a := by
          rwa [List.getLast?_cons_cons] at hlast
        obtain ⟨b, hb, hr⟩ := ih (List.chain'_cons.mp hch).2 a ha' hlast'
        exact ⟨b, List.mem_cons_of_mem _ hb, hr⟩

/-- In a chain, every member that is not the first element has a
predecessor it is related from. -/
theorem chain'_prev {R : Nat → Nat → Prop} :
    ∀ ids : List Nat, List.Chain' R ids → ∀ a ∈ ids, ids.head? ≠ some a →
      ∃ b ∈ ids, R b a := by
  intro ids
  induction ids with
  | nil =>
    intro _ a ha
    exact absurd ha (List.not_mem_nil a)
  | cons x t ih =>
    intro hch a ha hhead
    have hax : a ≠ x := by
      intro heq
      exact hhead (by rw [heq]; rfl)
    rcases List.mem_cons.mp ha with rfl | ha'
    · exact absurd rfl hax
    · cases t with
      | nil => exact absurd ha' (List.not_mem_nil a)
      | cons y t' =>
        by_cases hay : a = y
        · subst hay
          exact ⟨x, List.mem_cons_self _ _, (List.chain'_cons.mp hch).1⟩
        · obtain ⟨b, hb, hr⟩ := ih (List.chain'_cons.mp hch).2 a ha'
            (fun hh => hay (Option.some_inj.mp hh.symm))
          exact ⟨b, List.mem_cons_of_mem _ hb, hr⟩

/-- A chain member whose node has no right pointer must be the chain's last
element. -/
theorem last_of_right_none (s : Interp) (ids : List Nat) (hw : WfChain s ids)
    (a : Nat) (ha : a ∈ ids)
    (hnone : ((s.nodes[a]?).getD default).right = none) :
    ids.getLast? = some a := by
  by_contra hne
  obtain ⟨b, _, hlink⟩ := chain'_next ids hw.chain a ha hne
  obtain ⟨na, nb, hna, hnb, hr, hl⟩ := hlink
  rw [hna] at hnone
  rw [show ((some na).getD default) = na from rfl] at hnone
  rw [hnone] at hr
  exact Option.noConfusion hr

/-- A chain member whose node has no left pointer must be the chain's first
element. -/
theorem head_of_left_none (s : Interp) (ids : List Nat) (hw : WfChain s ids)
    (a : Nat) (ha : a ∈ ids)
    (hnone : ((s.nodes[a]?).getD default).left = none) :
    ids.head? = some a := by
  by_contra hne
  obtain ⟨b, _, hlink⟩ := chain'_prev ids hw.chain a ha hne
  obtain ⟨nb, na, hnb, hna, hr, hl⟩ := hlink
  rw [hna] at hnone
  rw [show ((some na).getD default) = na from rfl] at hnone
  rw [hnone] at hl
  exact Option.noConfusion hl

end Screwtape

namespace Screwtape

/-- Left allocation keeps every already-allocated node, its value and its
right pointer. -/
theorem allocLeft_preserves (ns : List TapeNode) (cur : Nat) :
    ∀ (i : Nat) (n : TapeNode), ns[i]? = some n → ∃ n' : TapeNode,
      (allocLeft ns cur)[i]? = some n' ∧ n'.value = n.value ∧ n'.right = n.right := by
  intro i n hi
  have hilen : i < ns.length := by
    by_contra hge
    rw [List.getElem?_eq_none (by omega)] at hi
    exact Option.noConfusion hi
  unfold allocLeft
  by_cases hic : i = cur
  · subst hic
    refine ⟨{ n with left := some ns.length }, ?_, rfl, rfl⟩
    rw [List.getElem?_append_left (by simpa using hilen),
      List.getElem?_set_eq_of_lt _ hilen, hi]
    rfl
  · refine ⟨n, ?_, rfl, rfl⟩
    rw [List.getElem?_append_left (by simpa using hilen),
      List.getElem?_set_ne (fun h => hic h.symm), hi]

/-- If the pivot's right pointer is empty, right allocation keeps every
existing link. -/
theorem linked_allocRight (ns : List TapeNode) (piv : Nat)
    (hpiv : ((ns[piv]?).getD default).right = none) :
    ∀ a b : Nat, Linked ns a b → Linked (allocRight ns piv) a b := by
  rintro a b ⟨na, nb, ha, hb, hr, hl⟩
  have hap : a ≠ piv := by
    intro heq
    subst heq
    rw [ha] at hpiv
    rw [show ((some na).getD default) = na from rfl] at hpiv
    rw [hpiv] at hr
    exact Option.noConfusion hr
  have halen : a < ns.length := by
    by_contra hge
    rw [List.getElem?_eq_none (by omega)] at ha
    exact Option.noConfusion ha
  have hblen : b < ns.length := by
    by_contra hge
    rw [List.getElem?_eq_none (by omega)] at hb
    exact Option.noConfusion hb
  by_cases hbp : b = piv
  · subst hbp
    refine ⟨na, { (ns[b]?).getD default with right := some ns.length }, ?_, ?_, hr, ?_⟩
    · unfold allocRight
      rw [List.getElem?_append_left (by simpa using halen),
        List.getElem?_set_ne (fun hh => hap hh.symm), ha]
    · unfold allocRight
      rw [List.getElem?_append_left (by simpa using hblen),
        List.getElem?_set_eq_of_lt _ hblen]
    · rw [hb]
      exact hl
  · refine ⟨na, nb, ?_, ?_, hr, hl⟩
    · unfold allocRight
      rw [List.getElem?_append_left (by simpa using halen),
        List.getElem?_set_ne (fun hh => hap hh.symm), ha]
    · unfold allocRight
      rw [List.getElem?_append_left (by simpa using hblen),
        List.getElem?_set_ne (fun hh => hbp hh.symm), hb]

/-- If the pivot's left pointer is empty, left allocation keeps every
existing link. -/
theorem linked_allocLeft (ns : List TapeNode) (piv : Nat)
    (hpiv : ((ns[piv]?).getD default).left = none) :
    ∀ a b : Nat, Linked ns a b → Linked (allocLeft ns piv) a b := by
  rintro a b ⟨na, nb, ha, hb, hr, hl⟩
  have hbp : b ≠ piv := by
    intro heq
    subst heq
    rw [hb] at hpiv
    rw [show ((some nb).getD default) = nb from rfl] at hpiv
    rw [hpiv] at hl
    exact Option.noConfusion hl
  have halen : a < ns.length := by
    by_contra hge
    rw [List.getElem?_eq_none (by omega)] at ha
    exact Option.noConfusion ha
  have hblen : b < ns.length := by
    by_contra hge
    rw [List.getElem?_eq_none (by omega)] at hb
    exact Option.noConfusion hb
  by_cases hap : a = piv
  · subst hap
    refine ⟨{ (ns[a]?).getD default with left := some ns.length }, nb, ?_, ?_, ?_, hl⟩
    · unfold allocLeft
      rw [List.getElem?_append_left (by simpa using halen),
        List.getElem?_set_eq_of_lt _ halen]
    · unfold allocLeft
      rw [List.getElem?_append_left (by simpa using hblen),
        List.getElem?_set_ne (fun hh => hbp hh.symm), hb]
    · rw [ha]
      exact hr
  · refine ⟨na, nb, ?_, ?_, hr, hl⟩
    · unfold allocLeft
      rw [List.getElem?_append_left (by simpa using halen),
        List.getElem?_set_ne (fun hh => hap hh.symm), ha]
    · unfold allocLeft
      rw [List.getElem?_append_left (by simpa using hblen),
        List.getElem?_set_ne (fun hh => hbp hh.symm), hb]

/-- Setting only the value of the current node leaves every pointer part of
the heap unchanged. -/
theorem sides_set_value (ns : List TapeNode) (cur : Nat) (v : Int) :
    ∀ k : Nat, ((ns.set cur { (ns[cur]?).getD default with value := v })[k]?).map sides
      = (ns[k]?).map sides := by
  intro k
  by_cases hk : k = cur
  · subst hk
    by_cases hlen : k < ns.length
    · rw [List.getElem?_set_eq_of_lt _ hlen, List.getElem?_eq_getElem hlen]
      rfl
    · rw [List.getElem?_eq_none (by simp; omega), List.getElem?_eq_none (by omega)]
  · rw [List.getElem?_set_ne (fun h => hk h.symm)]

/-- `setValue` preserves well-formedness: the same chain still witnesses
the structure, because only a value changed. -/
theorem wf_setValue (s : Interp) (v : Int) (h : Wf s) : Wf (setValue s v) := by
  obtain ⟨ids, hw⟩ := h
  have hs : ∀ k : Nat, ((setValue s v).nodes[k]?).map sides = (s.nodes[k]?).map sides :=
    sides_set_value s.nodes s.current v
  refine ⟨ids, ?_, ?_, hw.headEq, hw.lastEq, ?_, ?_, hw.curMem⟩
  · have hlen : (setValue s v).nodes.length = s.nodes.length := by
      simp [setValue]
    rw [hlen]
    exact hw.perm
  · exact List.Chain'.imp (linked_congr s.nodes (setValue s v).nodes hs) hw.chain
  · obtain ⟨n, hn, hl⟩ := hw.headLeft
    obtain ⟨n', hn', hl', _⟩ := exists_of_sides_eq s.nodes (setValue s v).nodes
      s.leftmost (hs s.leftmost) n hn
    exact ⟨n', hn', by rw [hl', hl]⟩
  · obtain ⟨n, hn, hr⟩ := hw.lastRight
    obtain ⟨n', hn', _, hr'⟩ := exists_of_sides_eq s.nodes (setValue s v).nodes
      s.rightmost (hs s.rightmost) n hn
    exact ⟨n', hn', by rw [hr', hr]⟩

end Screwtape

namespace Screwtape

/-- Extending the tape on the right (allocating a fresh zero node linked to
the rightmost node and making it the new rightmost) preserves the chain
structure: the witnessing chain gains the new index at its end.  The new
current index may be any member of the extended chain. -/
theorem wfChain_alloc_right_general (s : Interp) (ids : List Nat) (hw : WfChain s ids)
    (c' : Nat) (hc' : c' ∈ ids ++ [s.nodes.length]) :
    WfChain { s with
      nodes := allocRight s.nodes s.rightmost
      current := c'
      rightmost := s.nodes.length } (ids ++ [s.nodes.length]) := by
  obtain ⟨nR, hnR, hnRr⟩ := hw.lastRight
  have hRlen : s.rightmost < s.nodes.length := by
    by_contra hge
    rw [List.getElem?_eq_none (by omega)] at hnR
    exact Option.noConfusion hnR
  have hpiv : ((s.nodes[s.rightmost]?).getD default).right = none := by
    rw [hnR]
    exact hnRr
  have hlen : (allocRight s.nodes s.rightmost).length = s.nodes.length + 1 := by
    simp [allocRight]
  have hnewnode : (allocRight s.nodes s.rightmost)[s.nodes.length]?
      = some ⟨0, some s.rightmost, none⟩ := by
    unfold allocRight
    rw [List.getElem?_append_right (by simp)]
    simp
  refine ⟨?_, ?_, ?_, ?_, ?_, ?_, hc'⟩
  · show (ids ++ [s.nodes.length]).Perm (List.range (allocRight s.nodes s.rightmost).length)
    rw [hlen, List.range_succ]
    exact hw.perm.append (List.Perm.refl _)
  · show List.Chain' (Linked (allocRight s.nodes s.rightmost)) (ids ++ [s.nodes.length])
    rw [List.chain'_append]
    refine ⟨List.Chain'.imp (linked_allocRight s.nodes s.rightmost hpiv) hw.chain,
      List.chain'_singleton _, ?_⟩
    intro x hx y hy
    have hx' : s.rightmost = x := by
      rw [hw.lastEq] at hx
      simpa using hx
    have hy' : s.nodes.length = y := by
      simpa using hy
    subst hx'
    subst hy'
    refine ⟨{ nR with right := some s.nodes.length }, ⟨0, some s.rightmost, none⟩,
      ?_, hnewnode, rfl, rfl⟩
    unfold allocRight
    rw [List.getElem?_append_left (by simpa using hRlen),
      List.getElem?_set_eq_of_lt _ hRlen, hnR]
    rfl
  · show (ids ++ [s.nodes.length]).head? = some s.leftmost
    rw [List.head?_append, hw.headEq]
    rfl
  · show (ids ++ [s.nodes.length]).getLast? = some s.nodes.length
    exact List.getLast?_concat _
  · show ∃ n : TapeNode, (allocRight s.nodes s.rightmost)[s.leftmost]? = some n
      ∧ n.left = none
    obtain ⟨nH, hnH, hnHl⟩ := hw.headLeft
    obtain ⟨n', h1, _, h3⟩ := allocRight_preserves s.nodes s.rightmost s.leftmost nH hnH
    exact ⟨n', h1, by rw [h3, hnHl]⟩
  · exact ⟨⟨0, some s.rightmost, none⟩, hnewnode, rfl⟩

/-- Extending the tape on the left preserves the chain structure: the
witnessing chain gains the new index at its front. -/
theorem wfChain_alloc_left_general (s : Interp) (ids : List Nat) (hw : WfChain s ids)
    (c' : Nat) (hc' : c' ∈ s.nodes.length :: ids) :
    WfChain { s with
      nodes := allocLeft s.nodes s.leftmost
      current := c'
      leftmost := s.nodes.length } (s.nodes.length :: ids) := by
  obtain ⟨nH, hnH, hnHl⟩ := hw.headLeft
  have hHlen : s.leftmost < s.nodes.length := by
    by_contra hge
    rw [List.getElem?_eq_none (by omega)] at hnH
    exact Option.noConfusion hnH
  have hpiv : ((s.nodes[s.leftmost]?).getD default).left = none := by
    rw [hnH]
    exact hnHl
  have hlen : (allocLeft s.nodes s.leftmost).length = s.nodes.length + 1 := by
    simp [allocLeft]
  have hnewnode : (allocLeft s.nodes s.leftmost)[s.nodes.length]?
      = some ⟨0, none, some s.leftmost⟩ := by
    unfold allocLeft
    rw [List.getElem?_append_right (by simp)]
    simp
  have hidsne : ids ≠ [] := by
    intro hnil
    rw [hnil] at hw
    exact Option.noConfusion hw.headEq
  refine ⟨?_, ?_, ?_, ?_, ?_, ?_, hc'⟩
  · show (s.nodes.length :: ids).Perm (List.range (allocLeft s.nodes s.leftmost).length)
    rw [hlen, List.range_succ]
    exact (hw.perm.cons _).trans (List.perm_append_singleton _ _).symm
  · show List.Chain' (Linked (allocLeft s.nodes s.leftmost)) (s.nodes.length :: ids)
    rw [List.chain'_cons']
    refine ⟨?_, List.Chain'.imp (linked_allocLeft s.nodes s.leftmost hpiv) hw.chain⟩
    intro y hy
    have hy' : s.leftmost = y := by
      rw [hw.headEq] at hy
      simpa using hy
    subst hy'
    refine ⟨⟨0, none, some s.leftmost⟩, { nH with left := some s.nodes.length },
      hnewnode, ?_, rfl, rfl⟩
    unfold allocLeft
    rw [List.getElem?_append_left (by simpa using hHlen),
      List.getElem?_set_eq_of_lt _ hHlen, hnH]
    rfl
  · rfl
  · show (s.nodes.length :: ids).getLast? = some s.rightmost
    cases ids with
    | nil => exact absurd rfl hidsne
    | cons x t =>
      rw [List.getLast?_cons_cons]
      exact hw.lastEq
  · exact ⟨⟨0, none, some s.leftmost⟩, hnewnode, rfl⟩
  · show ∃ n : TapeNode, (allocLeft s.nodes s.leftmost)[s.rightmost]? = some n
      ∧ n.right = none
    obtain ⟨nR, hnR, hnRr⟩ := hw.lastRight
    obtain ⟨n', h1, _, h3⟩ := allocLeft_preserves s.nodes s.leftmost s.rightmost nR hnR
    exact ⟨n', h1, by rw [h3, hnRr]⟩

end Screwtape

namespace Screwtape

/-- `moveRight` preserves well-formedness: either the cursor moves onto the
chain's next member, or (at the right end) the chain is extended by the
freshly allocated node. -/
theorem wf_moveRight (s : Interp) (h : Wf s) : Wf (moveRight s) := by
  obtain ⟨ids, hw⟩ := h
  cases hright : (getNode s s.current).right with
  | some j =>
    have hclen : s.current < s.nodes.length :=
      List.mem_range.mp (hw.perm.mem_iff.mp hw.curMem)
    have hnc : s.nodes[s.current]? = some (getNode s s.current) := by
      unfold getNode
      rw [List.getElem?_eq_getElem hclen]
      rfl
    have hne : ids.getLast? ≠ some s.current := by
      intro heq
      have hrc : s.rightmost = s.current := by
        rw [hw.lastEq] at heq
        exact Option.some_inj.mp heq
      obtain ⟨nR, hnR, hnRr⟩ := hw.lastRight
      rw [hrc, hnc] at hnR
      have : getNode s s.current = nR := Option.some_inj.mp hnR
      rw [this, hnRr] at hright
      exact Option.noConfusion hright
    obtain ⟨b, hb, hlink⟩ := chain'_next ids hw.chain s.current hw.curMem hne
    obtain ⟨na, nb, hna, hnb, hr, hl⟩ := hlink
    have hna' : na = getNode s s.current := by
      rw [hnc] at hna
      exact (Option.some_inj.mp hna).symm
    have hbj : b = j := by
      rw [hna', hright] at hr
      exact (Option.some_inj.mp hr).symm
    have hmr : moveRight s = { s with current := j } := (moveRight_eq s).2 j hright
    rw [hmr, ← hbj]
    exact ⟨ids, hw.perm, hw.chain, hw.headEq, hw.lastEq, hw.headLeft, hw.lastRight, hb⟩
  | none =>
    have hlastcur : ids.getLast? = some s.current :=
      last_of_right_none s ids hw s.current hw.curMem hright
    have hrc : s.rightmost = s.current := by
      rw [hw.lastEq] at hlastcur
      exact Option.some_inj.mp hlastcur
    have hmr : moveRight s = { s with
        nodes := allocRight s.nodes s.current
        current := s.nodes.length
        rightmost := s.nodes.length } := (moveRight_eq s).1 hright
    rw [hmr, ← hrc]
    exact ⟨ids ++ [s.nodes.length],
      wfChain_alloc_right_general s ids hw s.nodes.length (by simp)⟩

/-- `moveLeft` is the same as `moveRight`, but no equation lemma was
proved for it, so the cases are handled directly. -/
theorem moveLeft_eq (s : Interp) :
    ((getNode s s.current).left = none →
      moveLeft s = { s with
        nodes := allocLeft s.nodes s.current
        current := s.nodes.length
        leftmost := s.nodes.length })
    ∧ ∀ j : Nat, (getNode s s.current).left = some j →
      moveLeft s = { s with current := j } := by
  constructor
  · intro h
    unfold moveLeft
    rw [h]
    rfl
  · intro j h
    unfold moveLeft
    rw [h]

/-- `moveLeft` preserves well-formedness. -/
theorem wf_moveLeft (s : Interp) (h : Wf s) : Wf (moveLeft s) := by
  obtain ⟨ids, hw⟩ := h
  cases hleft : (getNode s s.current).left with
  | some j =>
    have hclen : s.current < s.nodes.length :=
      List.mem_range.mp (hw.perm.mem_iff.mp hw.curMem)
    have hnc : s.nodes[s.current]? = some (getNode s s.current) := by
      unfold getNode
      rw [List.getElem?_eq_getElem hclen]
      rfl
    have hne : ids.head? ≠ some s.current := by
      intro heq
      have hlc : s.leftmost = s.current := by
        rw [hw.headEq] at heq
        exact Option.some_inj.mp heq
      obtain ⟨nH, hnH, hnHl⟩ := hw.headLeft
      rw [hlc, hnc] at hnH
      have : getNode s s.current = nH := Option.some_inj.mp hnH
      rw [this, hnHl] at hleft
      exact Option.noConfusion hleft
    obtain ⟨b, hb, hlink⟩ := chain'_prev ids hw.chain s.current hw.curMem hne
    obtain ⟨nb, na, hnb, hna, hr, hl⟩ := hlink
    have hna' : na = getNode s s.current := by
      rw [hnc] at hna
      exact (Option.some_inj.mp hna).symm
    have hbj : b = j := by
      rw [hna', hleft] at hl
      exact (Option.some_inj.mp hl).symm
    have hmv : moveLeft s = { s with current := j } := (moveLeft_eq s).2 j hleft
    rw [hmv, ← hbj]
    exact ⟨ids, hw.perm, hw.chain, hw.headEq, hw.lastEq, hw.headLeft, hw.lastRight, hb⟩
  | none =>
    have hheadcur : ids.head? = some s.current :=
      head_of_left_none s ids hw s.current hw.curMem hleft
    have hlc : s.leftmost = s.current := by
      rw [hw.headEq] at hheadcur
      exact Option.some_inj.mp hheadcur
    have hmv : moveLeft s = { s with
        nodes := allocLeft s.nodes s.current
        current := s.nodes.length
        leftmost := s.nodes.length } := (moveLeft_eq s).1 hleft
    rw [hmv, ← hlc]
    exact ⟨s.nodes.length :: ids,
      wfChain_alloc_left_general s ids hw s.nodes.length (List.mem_cons_self _ _)⟩

/-- `addCellLeft` preserves well-formedness. -/
theorem wf_addCellLeft (s : Interp) (h : Wf s) : Wf (addCellLeft s) := by
  obtain ⟨ids, hw⟩ := h
  exact ⟨s.nodes.length :: ids,
    wfChain_alloc_left_general s ids hw s.current
      (List.mem_cons_of_mem _ hw.curMem)⟩

/-- `addCellRight` preserves well-formedness. -/
theorem wf_addCellRight (s : Interp) (h : Wf s) : Wf (addCellRight s) := by
  obtain ⟨ids, hw⟩ := h
  exact ⟨ids ++ [s.nodes.length],
    wfChain_alloc_right_general s ids hw s.current
      (List.mem_append_left _ hw.curMem)⟩

/-- The freshly constructed interpreter state is well formed: the single
zero cell is its own chain. -/
theorem wf_init (p : List Char) : Wf (initInterp p) := by
  refine ⟨[0], ?_, List.chain'_singleton 0, rfl, rfl,
    ⟨⟨0, none, none⟩, rfl, rfl⟩, ⟨⟨0, none, none⟩, rfl, rfl⟩, ?_⟩
  · exact List.Perm.refl _
  · exact List.mem_singleton.mpr rfl

/-- C9: every tape-mutating operation — each dispatch case of `step`, as
well as `addCellLeft` and `addCellRight` — preserves the tape's structural
invariants: at least one cell; a single current cell lying on the chain;
the left/right links form an acyclic chain covering all allocated nodes in
which left and right are mutual inverses; and the leftmost/rightmost
markers name the true ends of the chain (no left neighbour at the leftmost
node, no right neighbour at the rightmost node). -/
theorem tape_structural_invariants (s : Interp) (h : Wf s) :
    Wf (step s) ∧ Wf (addCellLeft s) ∧ Wf (addCellRight s) := by
  refine ⟨?_, wf_addCellLeft s h, wf_addCellRight s h⟩
  simp only [step]
  repeat' split
  all_goals
    first
      | exact wf_congr s _ rfl rfl rfl rfl h
      | exact wf_advance _ (wf_setValue s _ h)
      | exact wf_advance _ (wf_moveRight s h)
      | exact wf_advance _ (wf_moveLeft s h)
      | exact wf_advance _ (wf_congr s _ rfl rfl rfl rfl h)

/-- Witness for C9 at the initial state of the program `+`. -/
theorem tape_structural_invariants_witness :
    Wf (step (initInterp ['+'])) ∧ Wf (addCellLeft (initInterp ['+']))
    ∧ Wf (addCellRight (initInterp ['+'])) :=
  tape_structural_invariants (initInterp ['+']) (wf_init ['+'])

end Screwtape
